import Mathlib

/-!
Verification of the matrix-stats probing script (`src/main.py`).

The script resolves each federation domain to a homeserver authority via a
three-tier protocol (well-known document, DNS SRV, fallback to port 8448),
fetches the federation version endpoint, normalizes the version string, and
folds all per-domain results into a frequency table via
`Counter(results).most_common()` followed by dropping the `None` key.

The shallow embedding below represents each network interaction by its
outcome, passed in as an explicit argument:
* the well-known tier's outcome is `Option String` — `some v` when the HTTPS
  fetch succeeded and the JSON field `m.server` held the string `v`, `none`
  for any failure (network error, timeout, malformed or missing JSON field);
* the SRV tier's outcome is `Option (List SrvRecord)` — `some recs` when the
  DNS query succeeded with record list `recs` (possibly empty), `none` on any
  DNS failure;
* the version fetch's outcome is `Option (String × String)` — `some (n, v)`
  when the HTTPS fetch succeeded and the JSON body held `server.name = n` and
  `server.version = v`, `none` for any failure.
Python's caught exceptions become explicit `Option` case analysis; the
functions themselves are total, mirroring the fact that every error path in
the script is caught and degrades rather than propagating.
-/

namespace MatrixStats

/-- The three resolution methods of `homeserver_for_domain`
(`'well-known'`, `'SRV'`, `'fallback'` in the script). -/
inductive Method where
  | wellKnown
  | srv
  | fallback
  deriving DecidableEq, Repr

/-- One DNS SRV answer record, of which the script uses `host` and `port`
(`res[0].host`, `res[0].port`). -/
structure SrvRecord where
  host : String
  port : Nat
  deriving DecidableEq, Repr

/-- The triple `(homeserver, headers, method)` returned by
`homeserver_for_domain`.  `headers` models the Python `headers` variable:
`none` for Python `None`, `some ("Host", d)` for `{'Host': d}`. -/
structure ResolutionResult where
  homeserver : String
  headers : Option (String × String)
  method : Method
  deriving DecidableEq, Repr

/-- Embedding of `homeserver_for_domain` (src/main.py lines 34-57).
`wellKnownServer` is the outcome of the tier-1 fetch of
`https://{domain}/.well-known/matrix/server` and its `m.server` field;
`srvRecords` is the outcome of the DNS SRV query for
`_matrix._tcp.{domain}`.  Taking `res[0]` of an empty record list raises
`IndexError` in Python, which the surrounding `except` catches before the
`headers` assignment, so `some []` lands in the fallback branch with the
`headers` variable still `None`.  Python's `':' not in homeserver_initial`
is substring containment, which for the single character `':'` is exactly
membership in the character list. -/
def homeserver_for_domain (wellKnownServer : Option String)
    (srvRecords : Option (List SrvRecord)) (domain : String) : ResolutionResult :=
  match wellKnownServer with
  | some homeserverInitial =>
      if ':' ∈ homeserverInitial.data then
        ⟨homeserverInitial, none, Method.wellKnown⟩
      else
        ⟨homeserverInitial ++ ":8448", none, Method.wellKnown⟩
  | none =>
      match srvRecords with
      | some (r :: _) =>
          ⟨r.host ++ ":" ++ toString r.port, some ("Host", domain), Method.srv⟩
      | _ =>
          ⟨domain ++ ":8448", none, Method.fallback⟩

/-- The whitespace class of Python `str.split()` with no separator argument:
exactly the characters for which Python `str.isspace()` holds — tab through
carriage return (U+0009-U+000D), the file/group/record/unit separators and
the space (U+001C-U+0020), next line (U+0085), no-break space (U+00A0), and
the Unicode separator characters: category Zs (U+1680, U+2000-U+200A,
U+202F, U+205F, U+3000), Zl (U+2028) and Zp (U+2029). -/
def pyIsSpace (c : Char) : Bool :=
  (0x09 ≤ c.toNat && c.toNat ≤ 0x0d) ||
  (0x1c ≤ c.toNat && c.toNat ≤ 0x20) ||
  c.toNat == 0x85 || c.toNat == 0xa0 ||
  c.toNat == 0x1680 ||
  (0x2000 ≤ c.toNat && c.toNat ≤ 0x200a) ||
  (0x2028 ≤ c.toNat && c.toNat ≤ 0x2029) ||
  c.toNat == 0x202f || c.toNat == 0x205f ||
  c.toNat == 0x3000

/-- Worker for `pySplit`: scans the characters, accumulating the current
token reversed in `acc`; a whitespace character (or the end of input)
finishes the token if it is nonempty.  Mirrors Python `str.split()` with no
argument: runs of whitespace separate tokens and produce no empty strings. -/
def pySplitAux (cs : List Char) (acc : List Char) : List String :=
  match cs with
  | [] => if acc.isEmpty then [] else [String.mk acc.reverse]
  | c :: rest =>
      if pyIsSpace c then
        if acc.isEmpty then pySplitAux rest []
        else String.mk acc.reverse :: pySplitAux rest []
      else pySplitAux rest (c :: acc)

/-- Embedding of Python `s.split()` (no separator): whitespace-delimited
tokens, with no empty tokens and no leading/trailing artifacts. -/
def pySplit (s : String) : List String :=
  pySplitAux s.data []

/-- Embedding of `version_for_homeserver` (src/main.py lines 59-70).
`serverInfo` is the outcome of fetching
`https://{homeserver}/_matrix/federation/v1/version`: `some (name, version)`
when the fetch succeeded and the body held `server.name` and
`server.version`.  The script computes
`'{0}/{1}'.format(name, version.split()[0])`; when `version.split()` is
empty the `[0]` raises `IndexError`, caught by the same `except` as fetch
failures, so the function returns `None` (here `none`).  The debug print has
no influence on the returned value and is not modelled. -/
def version_for_homeserver (serverInfo : Option (String × String)) : Option String :=
  match serverInfo with
  | none => none
  | some (name, rawVersion) =>
      match pySplit rawVersion with
      | [] => none
      | token :: _ => some (name ++ "/" ++ token)

/-! ### The fan-out coordinator's fold (src/main.py lines 156-162)

`asyncio.gather` preserves task order, so the coordinator receives one
`Option String` per domain, in domain order; the fold below takes that list
of per-domain outcomes as its input.  `Counter(results)` keeps its keys in
first-seen order; `.most_common()` is `sorted(items, key=count,
reverse=True)`, a stable descending sort, so ties keep first-seen order.
The final loop copies the sorted pairs into a fresh dict, skipping the
`None` key. -/

/-- Worker for `counterKeys`: left fold that appends each element not yet
seen, preserving first-occurrence order — the key order of a Python
`dict`/`Counter` built by insertion. -/
def counterKeysAux {α : Type} [DecidableEq α] (acc : List α) : List α → List α
  | [] => acc
  | a :: l => counterKeysAux (if a ∈ acc then acc else acc ++ [a]) l

/-- The distinct elements of `l` in first-seen order: the key order of
`Counter(l)`. -/
def counterKeys {α : Type} [DecidableEq α] (l : List α) : List α :=
  counterKeysAux [] l

/-- `Counter(results).items()`: each distinct outcome paired with its
multiplicity, keys in first-seen order. -/
def counterItems (results : List (Option String)) : List (Option String × Nat) :=
  (counterKeys results).map (fun k => (k, results.count k))

/-- One step of a stable descending insertion: place `x` after every element
whose count is at least `x.2`, before the first strictly smaller one. -/
def insDesc {α : Type} (x : α × Nat) : List (α × Nat) → List (α × Nat)
  | [] => [x]
  | y :: l => if y.2 < x.2 then x :: y :: l else y :: insDesc x l

/-- Stable sort by descending second component, inserting the elements left
to right so that equal counts keep their input order — the semantics of
Python's stable `sorted(·, key=itemgetter(1), reverse=True)` that implements
`Counter.most_common`. -/
def stableSortDesc {α : Type} (l : List (α × Nat)) : List (α × Nat) :=
  l.foldl (fun acc x => insDesc x acc) []

/-- `Counter(results).most_common()` (src/main.py line 156): all
(outcome, count) pairs sorted by descending count, ties in first-seen
order. -/
def most_common (results : List (Option String)) : List (Option String × Nat) :=
  stableSortDesc (counterItems results)

/-- The `versions` dict built by the loop on src/main.py lines 159-162, as
an ordered association list: the `most_common` pairs with the `None` key
skipped.  The keys are distinct, so each dict assignment is a fresh
insertion and the dict's iteration order is this list's order. -/
def versionsTable (results : List (Option String)) : List (String × Nat) :=
  (most_common results).filterMap (fun p => p.1.map (fun s => (s, p.2)))

/-- The distinct present version strings in the order each was first seen
across the per-domain results. -/
def firstSeenVersions (results : List (Option String)) : List String :=
  counterKeys (results.filterMap id)

/-- The (version, count) pairs with keys in first-seen order: the iteration
order a plain `dict`/`Counter` of the present versions would have, had the
script not applied `most_common`. -/
def firstSeenItems (results : List (Option String)) : List (String × Nat) :=
  (counterKeys (results.filterMap id)).map
    (fun s => (s, (results.filterMap id).count s))

end MatrixStats

namespace MatrixStats

/-- C1: For every domain whose well-known fetch succeeds with a valid
`m.server` string `v`: when `v` has no colon the authority is `v ++ ":8448"`,
otherwise `v` unchanged; the virtual-host header is absent and the method is
well-known — regardless of the SRV outcome, which is never consulted. -/
theorem resolver_wellKnown_tier (domain v : String)
    (srvRecords : Option (List SrvRecord)) :
    (homeserver_for_domain (some v) srvRecords domain).headers = none ∧
    (homeserver_for_domain (some v) srvRecords domain).method = Method.wellKnown ∧
    (':' ∉ v.data →
      (homeserver_for_domain (some v) srvRecords domain).homeserver = v ++ ":8448") ∧
    (':' ∈ v.data →
      (homeserver_for_domain (some v) srvRecords domain).homeserver = v) := by
  unfold homeserver_for_domain
  by_cases h : ':' ∈ v.data <;> simp [h]

/-- Witness for `resolver_wellKnown_tier` at concrete inputs: the value
`"synapse.example.org"` has no colon, so the resolver appends `:8448`. -/
theorem resolver_wellKnown_tier_witness :
    (homeserver_for_domain (some "synapse.example.org") none "example.org").homeserver
      = "synapse.example.org:8448" :=
  (resolver_wellKnown_tier "example.org" "synapse.example.org" none).2.2.1 (by decide)

/-- C2: For every domain where well-known fails and the SRV query returns at
least one record, the resolver returns the first record's `host:port`, the
virtual-host header `("Host", domain)`, and method SRV. -/
theorem resolver_srv_tier (domain : String) (r : SrvRecord) (rest : List SrvRecord) :
    homeserver_for_domain none (some (r :: rest)) domain =
      ⟨r.host ++ ":" ++ toString r.port, some ("Host", domain), Method.srv⟩ :=
  rfl

/-- C3: For every domain where the well-known tier fails and the SRV tier fails —
whether the DNS query itself failed (`none`) or returned no records
(`some []`) — the resolver returns authority `domain ++ ":8448"`, no
virtual-host header, and method fallback. -/
theorem resolver_fallback_tier (domain : String) :
    homeserver_for_domain none none domain
        = ⟨domain ++ ":8448", none, Method.fallback⟩ ∧
    homeserver_for_domain none (some []) domain
        = ⟨domain ++ ":8448", none, Method.fallback⟩ :=
  ⟨rfl, rfl⟩

/-- C4: Resolution is total: for every domain and every combination of tier
outcomes (well-known success, well-known failure with SRV records, with an
empty SRV answer, or with SRV failure) the resolver returns a
`ResolutionResult` through a definite tier; no combination of outcomes is
left unhandled, mirroring the script's cascading `except` blocks that let
no exception propagate. -/
theorem resolver_total (wellKnownServer : Option String)
    (srvRecords : Option (List SrvRecord)) (domain : String) :
    (∀ v, wellKnownServer = some v →
      (homeserver_for_domain wellKnownServer srvRecords domain).method = Method.wellKnown) ∧
    (∀ r rest, wellKnownServer = none → srvRecords = some (r :: rest) →
      (homeserver_for_domain wellKnownServer srvRecords domain).method = Method.srv) ∧
    (wellKnownServer = none → (srvRecords = none ∨ srvRecords = some []) →
      (homeserver_for_domain wellKnownServer srvRecords domain).method = Method.fallback) := by
  refine ⟨fun v hv => ?_, fun r rest hw hs => ?_, fun hw hs => ?_⟩
  · subst hv
    unfold homeserver_for_domain
    by_cases h : ':' ∈ v.data <;> simp [h]
  · subst hw; subst hs; rfl
  · subst hw
    rcases hs with h | h <;> subst h <;> rfl

/-- Witness for `resolver_total`: with both tiers failing the method is
fallback. -/
theorem resolver_total_witness :
    (homeserver_for_domain none none "matrix.tum.de").method = Method.fallback :=
  (resolver_total none none "matrix.tum.de").2.2 rfl (Or.inl rfl)

/-- C6: For every successful version fetch whose JSON body contains
`server.name` and `server.version`, whenever the whitespace split of the raw
version has a first token, the returned version string is
`name ++ "/" ++ token` — build metadata after the first whitespace is
stripped. -/
theorem version_normalization (name rawVersion token : String)
    (rest : List String) (h : pySplit rawVersion = token :: rest) :
    version_for_homeserver (some (name, rawVersion)) = some (name ++ "/" ++ token) := by
  simp [version_for_homeserver, h]

/-- Witness for `version_normalization`: server name `"Synapse"` with raw
version `"1.6.1 (abcd,branch)"` normalizes to `"Synapse/1.6.1"`, and the
same holds when the delimiter is the file-separator character `"\x1c"`,
which Python `str.split()` also treats as whitespace. -/
theorem version_normalization_witness :
    version_for_homeserver (some ("Synapse", "1.6.1 (abcd,branch)"))
        = some "Synapse/1.6.1" ∧
    version_for_homeserver (some ("Synapse", "1.6.1\x1c(abcd,branch)"))
        = some "Synapse/1.6.1" :=
  ⟨version_normalization "Synapse" "1.6.1 (abcd,branch)" "1.6.1" ["(abcd,branch)"]
      (by decide),
   version_normalization "Synapse" "1.6.1\x1c(abcd,branch)" "1.6.1" ["(abcd,branch)"]
      (by decide)⟩

/-- C10: For every fetch that succeeded with `server.name` present but whose
`server.version` splits into no whitespace tokens (empty or all-whitespace
string), the fetcher yields `none` — the `IndexError` from `split()[0]` is
caught like any other fetch failure — rather than a version string. -/
theorem version_empty_yields_absent (name rawVersion : String)
    (h : pySplit rawVersion = []) :
    version_for_homeserver (some (name, rawVersion)) = none := by
  simp [version_for_homeserver, h]

/-- Witness for `version_empty_yields_absent`: an all-whitespace raw version
`" "` (likewise the empty string, and the file-separator `"\x1c"`, which
Python also counts as whitespace) produces no tokens, so the result is
absent. -/
theorem version_empty_yields_absent_witness :
    version_for_homeserver (some ("Synapse", " ")) = none ∧
    version_for_homeserver (some ("Synapse", "")) = none ∧
    version_for_homeserver (some ("Synapse", "\x1c")) = none :=
  ⟨version_empty_yields_absent "Synapse" " " (by decide),
   version_empty_yields_absent "Synapse" "" (by decide),
   version_empty_yields_absent "Synapse" "\x1c" (by decide)⟩

/-- C5: Invariant: for every domain and every outcome of both tiers, the
virtual-host header of the resolution result is present if and only if the
method is SRV. -/
theorem resolver_header_iff_srv (wellKnownServer : Option String)
    (srvRecords : Option (List SrvRecord)) (domain : String) :
    (homeserver_for_domain wellKnownServer srvRecords domain).headers.isSome = true ↔
    (homeserver_for_domain wellKnownServer srvRecords domain).method = Method.srv := by
  unfold homeserver_for_domain
  rcases wellKnownServer with _ | v
  · rcases srvRecords with _ | ⟨_ | ⟨r, rest⟩⟩ <;> simp
  · by_cases h : ':' ∈ v.data <;> simp [h]

/-! ### Helper lemmas about the coordinator fold -/

theorem counterKeysAux_mem {α : Type} [DecidableEq α] (l : List α) (acc : List α) (a : α) :
    a ∈ counterKeysAux acc l ↔ a ∈ acc ∨ a ∈ l := by
  induction l generalizing acc with
  | nil => simp [counterKeysAux]
  | cons b l ih =>
      by_cases hb : b ∈ acc
      · rw [counterKeysAux, if_pos hb, ih]
        simp only [List.mem_cons]
        constructor
        · rintro (h | h)
          · exact Or.inl h
          · exact Or.inr (Or.inr h)
        · rintro (h | rfl | h)
          · exact Or.inl h
          · exact Or.inl hb
          · exact Or.inr h
      · rw [counterKeysAux, if_neg hb, ih]
        rw [List.mem_append, List.mem_singleton, List.mem_cons]
        tauto

theorem counterKeysAux_nodup {α : Type} [DecidableEq α] (l : List α) (acc : List α)
    (h : acc.Nodup) : (counterKeysAux acc l).Nodup := by
  induction l generalizing acc with
  | nil => simpa [counterKeysAux] using h
  | cons b l ih =>
      by_cases hb : b ∈ acc
      · rw [counterKeysAux, if_pos hb]
        exact ih acc h
      · rw [counterKeysAux, if_neg hb]
        refine ih _ ?_
        simp [List.nodup_append, h, hb]

theorem counterKeys_mem {α : Type} [DecidableEq α] (l : List α) (a : α) :
    a ∈ counterKeys l ↔ a ∈ l := by
  simp [counterKeys, counterKeysAux_mem]

theorem counterKeys_nodup {α : Type} [DecidableEq α] (l : List α) :
    (counterKeys l).Nodup :=
  counterKeysAux_nodup l [] List.nodup_nil

theorem counterKeys_perm_dedup {α : Type} [DecidableEq α] (l : List α) :
    List.Perm (counterKeys l) l.dedup := by
  rw [List.perm_ext_iff_of_nodup (counterKeys_nodup l) l.nodup_dedup]
  intro a
  rw [counterKeys_mem, List.mem_dedup]

theorem insDesc_perm {α : Type} (x : α × Nat) (l : List (α × Nat)) :
    List.Perm (insDesc x l) (x :: l) := by
  induction l with
  | nil => exact List.Perm.refl _
  | cons y l ih =>
      by_cases h : y.2 < x.2
      · rw [insDesc, if_pos h]
      · rw [insDesc, if_neg h]
        exact (ih.cons y).trans (List.Perm.swap x y l)

theorem stableSortDescAux_perm {α : Type} (l acc : List (α × Nat)) :
    List.Perm (l.foldl (fun acc x => insDesc x acc) acc) (acc ++ l) := by
  induction l generalizing acc with
  | nil => simp
  | cons x l ih =>
      rw [List.foldl_cons]
      refine (ih _).trans ?_
      refine ((insDesc_perm x acc).append_right l).trans ?_
      exact List.perm_middle.symm

theorem most_common_perm (results : List (Option String)) :
    List.Perm (most_common results) (counterItems results) := by
  simpa [most_common, stableSortDesc] using
    stableSortDescAux_perm (counterItems results) []

theorem insDesc_pairwise {α : Type} (x : α × Nat) (l : List (α × Nat))
    (h : l.Pairwise (fun a b => b.2 ≤ a.2)) :
    (insDesc x l).Pairwise (fun a b => b.2 ≤ a.2) := by
  induction l with
  | nil => simp [insDesc]
  | cons y l ih =>
      rcases List.pairwise_cons.1 h with ⟨hy, hl⟩
      by_cases hxy : y.2 < x.2
      · rw [insDesc, if_pos hxy]
        refine List.pairwise_cons.2 ⟨?_, h⟩
        intro b hb
        rcases List.mem_cons.1 hb with rfl | hb
        · exact Nat.le_of_lt hxy
        · exact Nat.le_trans (hy b hb) (Nat.le_of_lt hxy)
      · rw [insDesc, if_neg hxy]
        refine List.pairwise_cons.2 ⟨?_, ih hl⟩
        intro b hb
        rcases List.mem_cons.1 ((insDesc_perm x l).mem_iff.1 hb) with rfl | hb
        · exact Nat.le_of_not_lt hxy
        · exact hy b hb

theorem stableSortDescAux_pairwise {α : Type} (l acc : List (α × Nat))
    (h : acc.Pairwise (fun a b => b.2 ≤ a.2)) :
    (l.foldl (fun acc x => insDesc x acc) acc).Pairwise (fun a b => b.2 ≤ a.2) := by
  induction l generalizing acc with
  | nil => simpa using h
  | cons x l ih => exact ih _ (insDesc_pairwise x acc h)

theorem most_common_pairwise (results : List (Option String)) :
    (most_common results).Pairwise (fun a b => b.2 ≤ a.2) :=
  stableSortDescAux_pairwise _ _ List.Pairwise.nil

theorem count_filterMap_id {α : Type} [DecidableEq α] (l : List (Option α)) (s : α) :
    (l.filterMap id).count s = l.count (some s) := by
  induction l with
  | nil => rfl
  | cons a l ih =>
      cases a with
      | none => simpa [List.filterMap_cons, List.count_cons] using ih
      | some t => simp [List.filterMap_cons, List.count_cons, ih]

theorem length_filterMap_id_eq_iff {α : Type} (l : List (Option α)) :
    (l.filterMap id).length = l.length ↔ ∀ r ∈ l, r ≠ none := by
  induction l with
  | nil => simp
  | cons a l ih =>
      cases a with
      | none =>
          have hle := List.length_filterMap_le id l
          simp only [List.filterMap_cons, id, List.length_cons, List.mem_cons]
          constructor
          · intro h
            omega
          · intro h
            exact absurd rfl (h none (Or.inl rfl))
      | some s => simp [List.filterMap_cons, ih]

theorem counterKeysAux_filterMap_id {α : Type} [DecidableEq α]
    (l acc : List (Option α)) :
    (counterKeysAux acc l).filterMap id =
      counterKeysAux (acc.filterMap id) (l.filterMap id) := by
  induction l generalizing acc with
  | nil => simp [counterKeysAux]
  | cons a l ih =>
      cases a with
      | none =>
          by_cases h : (none : Option α) ∈ acc
          · rw [counterKeysAux, if_pos h, ih]
            simp
          · rw [counterKeysAux, if_neg h, ih, List.filterMap_append]
            simp
      | some s =>
          have hmem : (s ∈ acc.filterMap id) ↔ some s ∈ acc := by
            simp [List.mem_filterMap]
          have hcons : List.filterMap (id : Option α → Option α) (some s :: l)
              = s :: l.filterMap id := by simp
          by_cases h : (some s : Option α) ∈ acc
          · have hs : s ∈ acc.filterMap id := hmem.2 h
            rw [counterKeysAux, if_pos h, ih, hcons, counterKeysAux, if_pos hs]
          · have hs : s ∉ acc.filterMap id := fun hc => h (hmem.1 hc)
            rw [counterKeysAux, if_neg h, ih, List.filterMap_append, hcons,
              counterKeysAux, if_neg hs]
            simp

theorem counterKeys_filterMap_id {α : Type} [DecidableEq α] (l : List (Option α)) :
    (counterKeys l).filterMap id = counterKeys (l.filterMap id) := by
  simpa [counterKeys] using counterKeysAux_filterMap_id l []

theorem keys_map_lift (keys : List (Option String)) (cnt : Option String → Nat) :
    (keys.map (fun k => (k, cnt k))).filterMap
        (fun p => p.1.map (fun s => (s, p.2))) =
      (keys.filterMap id).map (fun s => (s, cnt (some s))) := by
  induction keys with
  | nil => rfl
  | cons k keys ih =>
      cases k <;> simp [List.filterMap_cons, ih]

theorem lift_counterItems_eq_firstSeenItems (results : List (Option String)) :
    (counterItems results).filterMap (fun p => p.1.map (fun s => (s, p.2))) =
      firstSeenItems results := by
  rw [counterItems, keys_map_lift, counterKeys_filterMap_id, firstSeenItems]
  exact List.map_congr_left (fun s _ => by rw [count_filterMap_id])

theorem versionsTable_perm_firstSeenItems (results : List (Option String)) :
    List.Perm (versionsTable results) (firstSeenItems results) := by
  rw [versionsTable, ← lift_counterItems_eq_firstSeenItems results]
  exact (most_common_perm results).filterMap _

theorem insDesc_filter_eq {α : Type} (x : α × Nat) (l : List (α × Nat)) (n : Nat)
    (hs : l.Pairwise (fun a b => b.2 ≤ a.2)) :
    (insDesc x l).filter (fun p => p.2 = n) =
      l.filter (fun p => p.2 = n) ++ (if x.2 = n then [x] else []) := by
  induction l with
  | nil => by_cases h : x.2 = n <;> simp [insDesc, h]
  | cons y l ih =>
      rcases List.pairwise_cons.1 hs with ⟨hy, hl⟩
      by_cases hxy : y.2 < x.2
      · rw [insDesc, if_pos hxy]
        by_cases hxn : x.2 = n
        · have hnil : (y :: l).filter (fun p => p.2 = n) = [] := by
            rw [List.filter_eq_nil_iff]
            intro p hp
            have hple : p.2 ≤ y.2 := by
              rcases List.mem_cons.1 hp with rfl | hp
              · exact Nat.le_refl _
              · exact hy p hp
            simp only [decide_eq_true_eq]
            omega
          simp [List.filter_cons, hnil, hxn]
        · simp [List.filter_cons, hxn]
      · rw [insDesc, if_neg hxy]
        by_cases hyn : y.2 = n <;> simp [List.filter_cons, hyn, ih hl]

theorem stableSortDescAux_filter {α : Type} (l acc : List (α × Nat)) (n : Nat)
    (hs : acc.Pairwise (fun a b => b.2 ≤ a.2)) :
    (l.foldl (fun acc x => insDesc x acc) acc).filter (fun p => p.2 = n) =
      acc.filter (fun p => p.2 = n) ++ l.filter (fun p => p.2 = n) := by
  induction l generalizing acc with
  | nil => simp
  | cons x l ih =>
      rw [List.foldl_cons, ih _ (insDesc_pairwise x acc hs),
        insDesc_filter_eq x acc n hs, List.filter_cons]
      by_cases h : x.2 = n <;> simp [h]

theorem most_common_filter (results : List (Option String)) (n : Nat) :
    (most_common results).filter (fun p => p.2 = n) =
      (counterItems results).filter (fun p => p.2 = n) := by
  have h := stableSortDescAux_filter (counterItems results) [] n List.Pairwise.nil
  simpa [most_common, stableSortDesc] using h

theorem filterMap_lift_filter (X : List (Option String × Nat)) (n : Nat) :
    (X.filterMap (fun p => p.1.map (fun s => (s, p.2)))).filter
        (fun q => q.2 = n) =
      (X.filter (fun p => p.2 = n)).filterMap
        (fun p => p.1.map (fun s => (s, p.2))) := by
  induction X with
  | nil => rfl
  | cons p X ih =>
      rcases p with ⟨k, c⟩
      cases k with
      | none =>
          by_cases h : c = n <;>
            simp [List.filterMap_cons, List.filter_cons, h, ih]
      | some s =>
          by_cases h : c = n <;>
            simp [List.filterMap_cons, List.filter_cons, h, ih]

theorem sum_indicator_eq_count {α : Type} [DecidableEq α] (keys : List α) (a : α) :
    (keys.map (fun k => if k = a then 1 else 0)).sum = keys.count a := by
  induction keys with
  | nil => rfl
  | cons b keys ih =>
      rw [List.map_cons, List.sum_cons, ih, List.count_cons]
      by_cases h : b = a
      · simp [h, Nat.add_comm]
      · simp [h, beq_iff_eq, Ne.symm h]

theorem sum_counts_eq_length {α : Type} [DecidableEq α] (l keys : List α)
    (hnd : keys.Nodup) (hcov : ∀ a ∈ l, a ∈ keys) :
    (keys.map (fun k => l.count k)).sum = l.length := by
  induction l with
  | nil => simp
  | cons a l ih =>
      have hmem : a ∈ keys := hcov a (List.mem_cons_self a l)
      have hrest : ∀ b ∈ l, b ∈ keys := fun b hb => hcov b (List.mem_cons_of_mem a hb)
      have hcc : (fun k => (a :: l).count k)
          = fun k => l.count k + (if k = a then 1 else 0) := by
        funext k
        rw [List.count_cons]
        by_cases h : k = a
        · simp [h]
        · simp [h, beq_iff_eq, Ne.symm h]
      rw [hcc, List.sum_map_add, sum_indicator_eq_count,
        List.count_eq_one_of_mem hnd hmem, ih hrest, List.length_cons]

theorem table_sum_eq_present (results : List (Option String)) :
    ((versionsTable results).map Prod.snd).sum = (results.filterMap id).length := by
  rw [((versionsTable_perm_firstSeenItems results).map Prod.snd).sum_eq]
  have h1 : (firstSeenItems results).map Prod.snd =
      (counterKeys (results.filterMap id)).map
        (fun s => (results.filterMap id).count s) := by
    rw [firstSeenItems, List.map_map]
    rfl
  rw [h1]
  exact sum_counts_eq_length _ _ (counterKeys_nodup _)
    (fun a ha => (counterKeys_mem _ a).2 ha)

/-! ### The coordinator claims -/

/-- C7: For every sequence of per-domain outcomes the table has entries only
for versions actually reported (each entry's count is that version's
multiplicity among the results, and `None` outcomes are dropped); hence the
sum of the counts is the number of domains that yielded a version, which is
at most the number of domains, with equality exactly when every domain
yielded a version. -/
theorem table_drops_absent (results : List (Option String)) :
    (∀ p ∈ versionsTable results,
        some p.1 ∈ results ∧ p.2 = results.count (some p.1)) ∧
    ((versionsTable results).map Prod.snd).sum = (results.filterMap id).length ∧
    ((versionsTable results).map Prod.snd).sum ≤ results.length ∧
    (((versionsTable results).map Prod.snd).sum = results.length ↔
      ∀ r ∈ results, r ≠ none) := by
  refine ⟨?_, table_sum_eq_present results, ?_, ?_⟩
  · intro p hp
    have hp' : p ∈ firstSeenItems results :=
      (versionsTable_perm_firstSeenItems results).mem_iff.1 hp
    rw [firstSeenItems] at hp'
    rcases List.mem_map.1 hp' with ⟨s, hs, rfl⟩
    have hsl : s ∈ results.filterMap id := (counterKeys_mem _ s).1 hs
    have hsr : some s ∈ results := by
      rcases List.mem_filterMap.1 hsl with ⟨a, ha, he⟩
      cases a with
      | none => exact Option.noConfusion he
      | some t =>
          cases he
          exact ha
    exact ⟨hsr, count_filterMap_id results s⟩
  · rw [table_sum_eq_present]
    exact List.length_filterMap_le id results
  · rw [table_sum_eq_present]
    exact length_filterMap_id_eq_iff results

/-- Witness for `table_drops_absent` at the concrete outcome list
`[some "A", none, some "A"]`, whose table is `[("A", 2)]`. -/
theorem table_drops_absent_witness :
    some "A" ∈ [some "A", none, some "A"] ∧
    (2 : Nat) = [some "A", none, some "A"].count (some "A") :=
  (table_drops_absent [some "A", none, some "A"]).1 ("A", 2) (by decide)

/-- C8: For every sequence of per-domain outcomes the entries of the table
are in descending count order (most common version first), because the
script sorts with `most_common()` before building the dict and dropping the
`None` key preserves the order of the rest. -/
theorem table_sorted_desc (results : List (Option String)) :
    (versionsTable results).Pairwise (fun a b => b.2 ≤ a.2) := by
  rw [versionsTable]
  refine List.Pairwise.filterMap _ ?_ (most_common_pairwise results)
  rintro ⟨k, c⟩ ⟨k', c'⟩ hle b hb b' hb'
  cases k with
  | none => exact absurd hb (by simp)
  | some s =>
      cases k' with
      | none => exact absurd hb' (by simp)
      | some s' =>
          simp only [Option.map_some', Option.mem_def, Option.some_inj] at hb hb'
          subst hb
          subst hb'
          exact hle

/-- C9 counterexample: at the concrete outcome list
`[some "A", some "B", some "B"]` the table's key order is `["B", "A"]`
(descending count), not the first-seen order `["A", "B"]` — the claim that
the table iterates in first-seen order is false. -/
theorem table_order_not_first_seen :
    (versionsTable [some "A", some "B", some "B"]).map Prod.fst ≠
      firstSeenVersions [some "A", some "B", some "B"] := by
  decide

/-- C9 as amended: the table's iteration order is not first-seen overall —
it is sorted by descending count — but within each fixed count value the
entries do appear in the order their versions were first seen: restricting
the table to the entries with any count `n` yields exactly the first-seen
ordered entries with count `n` (the stable-sort guarantee of
`most_common`). -/
theorem table_first_seen_within_equal_counts (results : List (Option String))
    (n : Nat) :
    (versionsTable results).filter (fun p => p.2 = n) =
      (firstSeenItems results).filter (fun p => p.2 = n) := by
  rw [versionsTable, filterMap_lift_filter, most_common_filter,
    ← filterMap_lift_filter, lift_counterItems_eq_firstSeenItems]

end MatrixStats
